/-
Verification of the remote backup transport and incremental-chain engine
of clickhouse-backup, modelled from pkg/new_storage/general.go and the
storage package sources, as a shallow embedding in Lean 4.

Go strings are modelled by Lean String; the Go standard library string
operations used by the source (strings.HasPrefix, strings.HasSuffix,
strings.TrimPrefix, strings.Split with separator "/", path.Join,
filepath.Base) are re-implemented below on the character lists of the
strings, matching the Go semantics on the inputs the program feeds them.
-/
import Mathlib

set_option maxRecDepth 4000

/-- Model of Go strings.HasPrefix on character lists: does s start with p. -/
def charsStarts : List Char → List Char → Bool
  | _, [] => true
  | [], _ :: _ => false
  | c :: cs, p :: ps => c == p && charsStarts cs ps

/-- Go strings.HasPrefix(s, p). -/
def goStarts (s p : String) : Bool := charsStarts s.data p.data

/-- Go strings.HasSuffix(s, p). -/
def goEnds (s p : String) : Bool := charsStarts s.data.reverse p.data.reverse

/-- Go strings.TrimPrefix(s, p): s without the leading p when present,
otherwise s unchanged. -/
def goTrimPref (s p : String) : String :=
  if goStarts s p then ⟨s.data.drop p.data.length⟩ else s

/-- Splitting a character list on a separator character; always returns at
least one (possibly empty) component, like Go strings.Split. -/
def splitChars (sep : Char) : List Char → List Char → List (List Char)
  | [], cur => [cur.reverse]
  | c :: cs, cur =>
    if c == sep then cur.reverse :: splitChars sep cs []
    else splitChars sep cs (c :: cur)

/-- Go strings.Split(s, sep-string of one character). -/
def goSplit (s : String) (sep : Char) : List String :=
  (splitChars sep s.data []).map (fun l => ⟨l⟩)

/-- Go path.Join(a, b) for already-clean components: empty elements are
dropped, the rest joined with a slash (path.Clean is the identity on the
clean inputs this program joins). -/
def pathJoin (a b : String) : String :=
  if a = "" then b else if b = "" then a else a ++ "/" ++ b

/-- Go filepath.Base(p) for slash-separated paths: the last non-empty
component; "." for the empty path, "/" for a path of only slashes. -/
def goBase (p : String) : String :=
  if p = "" then "."
  else
    match ((goSplit p '/').filter (fun c => c ≠ "")).getLast? with
    | some c => c
    | none => "/"

/-- A remote object as delivered by RemoteStorage.Walk: key name, size and
last-modified time (modelled as a natural number used only for ordering). -/
structure RemoteFile where
  name : String
  size : Int
  lastModified : Nat
deriving DecidableEq

/-- Backup - a logical backup entry of the catalog (general.go). -/
structure Backup where
  Name : String
  Size : Int
  Date : Nat
deriving DecidableEq

/-- The per-name accumulator of BackupList (the local type ClickhouseBackup
in general.go). -/
structure ClickhouseBackup where
  Metadata : Bool
  Shadow : Bool
  Tar : Bool
  Size : Int
  Date : Nat
deriving DecidableEq

/-- The Go zero value of the accumulator: reading a missing map key in
`files[parts[0]]` yields this. -/
def zeroCB : ClickhouseBackup := ⟨false, false, false, 0, 0⟩

/-- Lookup in the insertion-ordered association list that models the Go map
`files` (contents only; iteration order is modelled separately). -/
def alGet : List (String × ClickhouseBackup) → String → Option ClickhouseBackup
  | [], _ => none
  | (k, v) :: rest, n => if k = n then some v else alGet rest n

/-- Map assignment `files[k] = v`: overwrite in place when the key exists,
append otherwise. -/
def alSet : List (String × ClickhouseBackup) → String → ClickhouseBackup →
    List (String × ClickhouseBackup)
  | [], k, v => [(k, v)]
  | (k', v') :: rest, k, v =>
    if k' = k then (k, v) :: rest else (k', v') :: alSet rest k v

/-- The six single-file archive suffix tests of BackupList, in source
order. -/
def isArchiveName (n : String) : Bool :=
  goEnds n ".tar" || goEnds n ".tar.lz4" || goEnds n ".tar.bz2" ||
  goEnds n ".tar.gz" || goEnds n ".tar.sz" || goEnds n ".tar.xz"

/-- The key split of BackupList: strip the configured path, strip one
leading slash, split on slashes. -/
def keyParts (p : String) (o : RemoteFile) : List String :=
  goSplit (goTrimPref (goTrimPref o.name p) "/") '/'

/-- One iteration of the BackupList walk callback (general.go lines
103-132), acting on the accumulator map. -/
def backupListStep (p : String) (files : List (String × ClickhouseBackup))
    (o : RemoteFile) : List (String × ClickhouseBackup) :=
  if goStarts o.name p then
    let parts := keyParts p o
    let k := parts.headD ""
    let files1 :=
      if isArchiveName k then
        alSet files k ⟨false, false, true, o.size, o.lastModified⟩
      else files
    if 1 < parts.length then
      let b := (alGet files1 k).getD zeroCB
      alSet files1 k
        ⟨b.Metadata || parts.getD 1 "" == "metadata",
         b.Shadow || parts.getD 1 "" == "shadow",
         false, b.Size, b.Date⟩
    else files1
  else files

/-- The accumulator map after the whole walk, with keys in first-seen
order. -/
def backupListFiles (p : String) (keys : List RemoteFile) :
    List (String × ClickhouseBackup) :=
  keys.foldl (backupListStep p) []

/-- The inclusion predicate of BackupList: `e.Metadata && e.Shadow || e.Tar`. -/
def validCB (e : ClickhouseBackup) : Bool := e.Metadata && e.Shadow || e.Tar

/-- The result-building loop `for name, e := range files` of BackupList,
iterating the accumulator in the order `iter` (Go map iteration order is
unspecified, so it is a parameter; an admissible order is a permutation of
the map keys). -/
def backupListPre (files : List (String × ClickhouseBackup))
    (iter : List String) : List Backup :=
  iter.filterMap (fun n =>
    match alGet files n with
    | some e => if validCB e then some ⟨n, e.Size, e.Date⟩ else none
    | none => none)

/-- One insertion step of the stable ascending-by-date sort performed by
`sort.SliceStable` with less = Date i before Date j: a new element lands
after every element whose date is not greater. -/
def insertByDate (b : Backup) : List Backup → List Backup
  | [] => [b]
  | c :: cs => if b.Date < c.Date then b :: c :: cs else c :: insertByDate b cs

/-- Stable sort ascending by date. -/
def sortByDate (l : List Backup) : List Backup :=
  l.foldl (fun acc b => insertByDate b acc) []

/-- BackupList with an explicit Go-map iteration order. -/
def backupListIter (p : String) (keys : List RemoteFile)
    (iter : List String) : List Backup :=
  sortByDate (backupListPre (backupListFiles p keys) iter)

/-- BackupList at the canonical (first-seen) iteration order; any actual
run uses some permutation of these keys instead. -/
def backupList (p : String) (keys : List RemoteFile) : List Backup :=
  backupListIter p keys ((backupListFiles p keys).map Prod.fst)

/-- MetaFile - the chain-link record embedded in incremental archives:
required parent backup name and the relative paths hardlinked to it. -/
structure MetaFile where
  RequiredBackup : String
  Hardlinks : List String
deriving DecidableEq

/-- MetaFileName - the reserved archive entry name meta.json. -/
def MetaFileName : String := "meta.json"

/-- The bytes of a file or archive entry. JSON (de)serialization of the
MetaFile record is modelled at the abstraction level where a serialized
MetaFile round-trips and raw data bytes are not valid MetaFile JSON:
`metaJson mf` is the serialized form of mf, `bytes` is any other content,
and unmarshalling (`decodeMeta`) succeeds exactly on the former. -/
inductive FileContent where
  | bytes (data : List Nat)
  | metaJson (mf : MetaFile)
deriving DecidableEq

/-- json.Unmarshal of an entry into a MetaFile (see FileContent). -/
def decodeMeta : FileContent → Option MetaFile
  | FileContent.metaJson mf => some mf
  | FileContent.bytes _ => none

/-- One member of the tar-then-compress archive stream: entry name
(CustomName) and content. The tar and compression encodings are modelled
as the identity on the entry sequence. -/
structure TarEntry where
  name : String
  content : FileContent
deriving DecidableEq

/-- A regular file seen by the upload walk of the local tree, carrying its
path relative to localPath (the source computes it by trimming localPath
and a slash), its content, its physical identity fid (device+inode, the
data os.SameFile compares), and whether os.Open succeeds on it. Non-regular
entries are skipped by the walk and are not modelled. -/
structure LocalFile where
  relPath : String
  content : FileContent
  fid : Nat
  readable : Bool
deriving DecidableEq

/-- The os.Stat result for a file under diffFromPath at some relative
path: its physical identity and content. os.SameFile compares only fid. -/
structure DiffEntry where
  fid : Nat
  content : FileContent
deriving DecidableEq

/-- The errors of the storage layer and the pipeline. notFound models the
distinguished ErrNotFound value. -/
inductive Err where
  | notFound
  | transport (n : Nat)
  | statFailed
  | notADirectory
  | openFailed (p : String)
  | putFailed
  | badMetaJson
  | linkFailed (p : String)
deriving DecidableEq

/-- The remote-side circumstances of one CompressedStreamUpload call:
the error of the pre-upload GetFile probe (none means the remote object
exists), the os.Stat result for diffFromPath (some isDir, none on stat
error), and whether the PutFile transport itself succeeds. -/
structure UploadEnv where
  probe : Option Err
  diffStat : Option Bool
  putFileOk : Bool

/-- The filepath.Walk body of the upload producer goroutine (storage
CompressedStreamUpload, lines 283-314): returns the archive entries
streamed into the pipe, the collected hardlink list, and the walk error,
stopping at the first unreadable file. A file is hardlinked (bytes
omitted) when diffFromPath is non-empty and the file at the same relative
path under diffFromPath stats successfully with the same identity. -/
def producerWalk (diffFromPath : String)
    (diffTree : String → Option DiffEntry) :
    List LocalFile → List TarEntry × List String × Option Err
  | [] => ([], [], none)
  | f :: rest =>
    if f.readable then
      if diffFromPath ≠ "" &&
          (match diffTree f.relPath with
           | some d => d.fid == f.fid
           | none => false) then
        let r := producerWalk diffFromPath diffTree rest
        (r.1, f.relPath :: r.2.1, r.2.2)
      else
        let r := producerWalk diffFromPath diffTree rest
        (⟨f.relPath, f.content⟩ :: r.1, r.2.1, r.2.2)
    else ([], [], some (Err.openFailed f.relPath))

/-- The archive entries streamed by the producer before any failure. -/
def uploadEntries (tree : List LocalFile) (diffFromPath : String)
    (diffTree : String → Option DiffEntry) : List TarEntry :=
  (producerWalk diffFromPath diffTree tree).1

/-- The hardlink list collected by the producer. -/
def uploadHardlinks (tree : List LocalFile) (diffFromPath : String)
    (diffTree : String → Option DiffEntry) : List String :=
  (producerWalk diffFromPath diffTree tree).2.1

/-- The error, if any, with which the producer walk ended. -/
def uploadFerr (tree : List LocalFile) (diffFromPath : String)
    (diffTree : String → Option DiffEntry) : Option Err :=
  (producerWalk diffFromPath diffTree tree).2.2

/-- The final MetaFile archive entry written for a non-empty hardlink
list: RequiredBackup is the base name of diffFromPath. -/
def metaEntryFor (diffFromPath : String) (hls : List String) : TarEntry :=
  ⟨MetaFileName, FileContent.metaJson ⟨goBase diffFromPath, hls⟩⟩

/-- The full entry sequence the producer feeds into the pipe: the data
entries, followed by the MetaFile entry when the walk succeeded and at
least one hardlink was collected (storage CompressedStreamUpload, lines
315-361). -/
def uploadArchive (tree : List LocalFile) (diffFromPath : String)
    (diffTree : String → Option DiffEntry) : List TarEntry :=
  if (uploadFerr tree diffFromPath diffTree).isNone &&
      !(uploadHardlinks tree diffFromPath diffTree).isEmpty then
    uploadEntries tree diffFromPath diffTree ++ [metaEntryFor diffFromPath
      (uploadHardlinks tree diffFromPath diffTree)]
  else uploadEntries tree diffFromPath diffTree

/-- The pipe phase of CompressedStreamUpload: the producer goroutine runs
`defer w.CloseWithError(ferr)` - Go evaluates the deferred call arguments
when the defer statement executes, i.e. before the body runs, while the
named return ferr is still nil - so the saved close argument is nil and
the pipe is always closed cleanly. The consumer (PutFile) therefore fails
only when its own transport fails, and otherwise uploads whatever entries
were streamed. -/
def uploadPipe (env : UploadEnv) (tree : List LocalFile)
    (diffFromPath : String) (diffTree : String → Option DiffEntry) :
    Except Err (List TarEntry) :=
  let ferrAtDeferTime : Option Err := none
  match ferrAtDeferTime with
  | some e => Except.error e
  | none =>
    if env.putFileOk then Except.ok (uploadArchive tree diffFromPath diffTree)
    else Except.error Err.putFailed

/-- CompressedStreamUpload (storage package, lines 245-370): probe the
remote archive object (only an error other than ErrNotFound aborts), check
that a non-empty diffFromPath stats as a directory, then run the
producer/consumer pipe. The value returned on success is the entry
sequence the remote object now holds. -/
def compressedStreamUpload (env : UploadEnv) (tree : List LocalFile)
    (diffFromPath : String) (diffTree : String → Option DiffEntry) :
    Except Err (List TarEntry) :=
  match env.probe with
  | some e =>
    if e ≠ Err.notFound then Except.error e
    else
      if diffFromPath ≠ "" then
        match env.diffStat with
        | none => Except.error Err.statFailed
        | some isDir =>
          if isDir then uploadPipe env tree diffFromPath diffTree
          else Except.error Err.notADirectory
      else uploadPipe env tree diffFromPath diffTree
  | none =>
    if diffFromPath ≠ "" then
      match env.diffStat with
      | none => Except.error Err.statFailed
      | some isDir =>
        if isDir then uploadPipe env tree diffFromPath diffTree
        else Except.error Err.notADirectory
    else uploadPipe env tree diffFromPath diffTree

/-- The extraction loop of CompressedStreamDownload (storage package,
lines 181-221): entries named meta.json are unmarshalled into the running
metafile variable and withheld from extraction (unmarshal failure aborts);
every other entry is written under its entry name. Returns the extracted
(name, content) pairs in stream order and the final metafile value, whose
Go zero value is the empty MetaFile. -/
def extractLoop : List TarEntry → MetaFile →
    Except Err (List (String × FileContent) × MetaFile)
  | [], mf => Except.ok ([], mf)
  | e :: rest, mf =>
    if e.name = MetaFileName then
      match decodeMeta e.content with
      | some m => extractLoop rest m
      | none => Except.error Err.badMetaJson
    else
      match extractLoop rest mf with
      | Except.ok (fs, m) => Except.ok ((e.name, e.content) :: fs, m)
      | Except.error err => Except.error err

/-- The hardlink phase of CompressedStreamDownload: each path of the
metafile hardlink list is linked from the materialized parent backup
directory; a missing source fails the download. -/
def hardlinkPhase (parent : String → Option FileContent) :
    List String → Except Err (List (String × FileContent))
  | [] => Except.ok []
  | h :: rest =>
    match parent h with
    | some c =>
      match hardlinkPhase parent rest with
      | Except.ok fs => Except.ok ((h, c) :: fs)
      | Except.error e => Except.error e
    | none => Except.error (Err.linkFailed h)

/-- The local tree CompressedStreamDownload materializes from one archive:
extracted entries followed by the hardlinked files. The recursive download
of MetaFile.RequiredBackup is abstracted by `parent`, the lookup into the
materialized parent backup directory (irrelevant when the hardlink list is
empty). -/
def compressedStreamDownload (archive : List TarEntry)
    (parent : String → Option FileContent) :
    Except Err (List (String × FileContent) × MetaFile) :=
  match extractLoop archive ⟨"", []⟩ with
  | Except.error e => Except.error e
  | Except.ok (fs, mf) =>
    match hardlinkPhase parent mf.Hardlinks with
    | Except.error e => Except.error e
    | Except.ok linked => Except.ok (fs ++ linked, mf)

/-- One insertion step of the stable descending-by-date sort used to pick
retention victims: a new element lands after every element whose date is
not smaller. -/
def insertByDateDesc (b : Backup) : List Backup → List Backup
  | [] => [b]
  | c :: cs =>
    if c.Date < b.Date then b :: c :: cs else c :: insertByDateDesc b cs

/-- Stable sort descending by date. -/
def sortByDateDesc (l : List Backup) : List Backup :=
  l.foldl (fun acc b => insertByDateDesc b acc) []

/-- Modelled from the spec: `GetBackupsToDelete` is called by
RemoveOldBackups but its definition is not among the provided sources; the
spec defines the set to delete as all but the most recent `keep`, by date
order, so the backups are ordered most-recent-first and everything after
the first `keep` is selected. -/
def GetBackupsToDelete (backups : List Backup) (keep : Int) : List Backup :=
  (sortByDateDesc backups).drop keep.toNat

/-- RemoveOldBackups (general.go lines 54-69) as the list of backups it
deletes from a given catalog: a keep count below one deletes nothing and
succeeds, otherwise the GetBackupsToDelete selection is removed. -/
def RemoveOldBackups (catalog : List Backup) (keep : Int) : List Backup :=
  if keep < 1 then [] else GetBackupsToDelete catalog keep

/-- The keys RemoveBackup (general.go lines 71-87) collects for deletion:
every walked key that has the raw string prefix path.Join(bd.path, name). -/
def removeBackupObjects (bdPath : String) (walked : List String)
    (backupName : String) : List String :=
  walked.filter (fun k => goStarts k (pathJoin bdPath backupName))

deriving instance DecidableEq for Except

example : goSplit "a/b" '/' = ["a", "b"] := by decide
example : goSplit "" '/' = [""] := by decide
example : isArchiveName "bk1.tar" = true := by decide
example : isArchiveName "bk3" = false := by decide
example :
    backupList ""
      [⟨"bk1.tar", 10, 5⟩, ⟨"bk2/metadata/x", 1, 1⟩,
       ⟨"bk2/shadow/y", 2, 2⟩, ⟨"bk3/metadata/x", 3, 3⟩] =
      [⟨"bk2", 0, 0⟩, ⟨"bk1.tar", 10, 5⟩] := by decide

/-- Does the walk deliver this object to the BackupList accumulator (the
HasPrefix filter of the callback). -/
def relevantB (p : String) (o : RemoteFile) : Bool := goStarts o.name p

/-- The candidate backup name an object contributes to: the first segment
of its split key. -/
def part0 (p : String) (o : RemoteFile) : String := (keyParts p o).headD ""

/-- Is this object a marker key for name n with second segment seg (for
example n/metadata/... or n/shadow/...). -/
def hasMarkerKey (p n seg : String) (o : RemoteFile) : Bool :=
  relevantB p o && (part0 p o == n) &&
    decide (1 < (keyParts p o).length) && ((keyParts p o).getD 1 "" == seg)

/-- The walk observed a marker key of the given kind for candidate name n. -/
def observesMarker (p : String) (keys : List RemoteFile) (n seg : String) :
    Bool :=
  keys.any (hasMarkerKey p n seg)

/-- Is this object a key whose first segment is exactly n. -/
def hasNameKey (p n : String) (o : RemoteFile) : Bool :=
  relevantB p o && (part0 p o == n)

/-- The walk observed some key with first segment n. -/
def observesName (p : String) (keys : List RemoteFile) (n : String) : Bool :=
  keys.any (hasNameKey p n)

/-- No candidate name that carries a recognized archive suffix also occurs
as the first segment of a multi-segment key: the precondition under which
the classification invariant of the catalog holds (without it, the
archive-suffix branch resets the markers and the multi-segment branch
drops the Tar flag, so observations are lost). -/
def noSuffixDirs (p : String) (keys : List RemoteFile) : Prop :=
  ∀ o ∈ keys, relevantB p o = true → 1 < (keyParts p o).length →
    isArchiveName (part0 p o) = false

/-- The classification invariant tying the BackupList accumulator to the
walk events observed so far. -/
def InvCB (p : String) (H : List RemoteFile)
    (st : List (String × ClickhouseBackup)) : Prop :=
  ∀ n : String,
    (isArchiveName n = true →
      ((alGet st n).isSome = true ↔ observesName p H n = true) ∧
        ∀ e, alGet st n = some e →
          e.Tar = true ∧ e.Metadata = false ∧ e.Shadow = false)
    ∧ (isArchiveName n = false →
        ∀ e, alGet st n = some e →
          e.Tar = false ∧ e.Metadata = observesMarker p H n "metadata" ∧
            e.Shadow = observesMarker p H n "shadow")
    ∧ (isArchiveName n = false → alGet st n = none →
        observesMarker p H n "metadata" = false ∧
          observesMarker p H n "shadow" = false)

/-! Ordering lemmas for the stable ascending sort of BackupList. -/

/-- Ascending date order on catalog entries. -/
def dateLe (a b : Backup) : Prop := a.Date ≤ b.Date

theorem mem_insertByDate {a b : Backup} {l : List Backup} :
    a ∈ insertByDate b l ↔ a = b ∨ a ∈ l := by
  induction l with
  | nil => simp [insertByDate]
  | cons c cs ih =>
    by_cases h : b.Date < c.Date
    · simp [insertByDate, h]
    · simp [insertByDate, h, ih]
      tauto

theorem pairwise_insertByDate {b : Backup} {l : List Backup}
    (h : l.Pairwise dateLe) : (insertByDate b l).Pairwise dateLe := by
  induction l with
  | nil => simp [insertByDate, List.pairwise_cons]
  | cons c cs ih =>
    rcases List.pairwise_cons.mp h with ⟨hc, hcs⟩
    by_cases hlt : b.Date < c.Date
    · rw [insertByDate, if_pos hlt]
      refine List.pairwise_cons.mpr ⟨?_, h⟩
      intro x hx
      rcases List.mem_cons.mp hx with rfl | hx
      · exact Nat.le_of_lt hlt
      · exact Nat.le_trans (Nat.le_of_lt hlt) (hc x hx)
    · rw [insertByDate, if_neg hlt]
      refine List.pairwise_cons.mpr ⟨?_, ih hcs⟩
      intro x hx
      rcases mem_insertByDate.mp hx with rfl | hx
      · exact Nat.le_of_not_lt hlt
      · exact hc x hx

theorem pairwise_sortByDate_fold (l : List Backup) :
    ∀ acc : List Backup, acc.Pairwise dateLe →
      (l.foldl (fun acc b => insertByDate b acc) acc).Pairwise dateLe := by
  induction l with
  | nil => intro acc h; exact h
  | cons b bs ih =>
    intro acc h
    exact ih (insertByDate b acc) (pairwise_insertByDate h)

theorem pairwise_sortByDate (l : List Backup) :
    (sortByDate l).Pairwise dateLe :=
  pairwise_sortByDate_fold l [] (List.Pairwise.nil)

theorem mem_sortByDate_fold (l : List Backup) :
    ∀ acc : List Backup, ∀ a : Backup,
      (a ∈ l.foldl (fun acc b => insertByDate b acc) acc ↔ a ∈ acc ∨ a ∈ l) := by
  induction l with
  | nil => intro acc a; simp
  | cons b bs ih =>
    intro acc a
    rw [List.foldl_cons, ih (insertByDate b acc) a]
    rw [mem_insertByDate]
    simp
    tauto

theorem mem_sortByDate {a : Backup} {l : List Backup} :
    a ∈ sortByDate l ↔ a ∈ l := by
  rw [sortByDate, mem_sortByDate_fold l [] a]
  simp

theorem filter_date_eq_nil {d : Nat} {c : Backup} {cs : List Backup}
    (hsorted : (c :: cs).Pairwise dateLe) (hd : d < c.Date) :
    (c :: cs).filter (fun x => x.Date == d) = [] := by
  rw [List.filter_eq_nil_iff]
  intro a ha
  rcases List.mem_cons.mp ha with rfl | ha
  · simp
    omega
  · have := (List.pairwise_cons.mp hsorted).1 a ha
    simp [dateLe] at this ⊢
    omega

theorem filter_insertByDate {d : Nat} {b : Backup} {l : List Backup}
    (hsorted : l.Pairwise dateLe) :
    (insertByDate b l).filter (fun x => x.Date == d) =
      l.filter (fun x => x.Date == d) ++
        (if b.Date == d then [b] else []) := by
  induction l with
  | nil => by_cases hb : b.Date = d <;> simp [insertByDate, hb]
  | cons c cs ih =>
    rcases List.pairwise_cons.mp hsorted with ⟨hc, hcs⟩
    by_cases hlt : b.Date < c.Date
    · rw [insertByDate, if_pos hlt, List.filter_cons]
      by_cases hb : b.Date = d
      · have hnil : (c :: cs).filter (fun x => x.Date == d) = [] :=
          filter_date_eq_nil hsorted (hb ▸ hlt)
        simp [hb, hnil]
      · simp [hb]
    · rw [insertByDate, if_neg hlt, List.filter_cons, List.filter_cons,
        ih hcs]
      by_cases hcd : c.Date = d <;> simp [hcd]

theorem filter_sortByDate_fold {d : Nat} (l : List Backup) :
    ∀ acc : List Backup, acc.Pairwise dateLe →
      (l.foldl (fun acc b => insertByDate b acc) acc).filter
          (fun x => x.Date == d) =
        acc.filter (fun x => x.Date == d) ++ l.filter (fun x => x.Date == d) := by
  induction l with
  | nil => intro acc _; simp
  | cons b bs ih =>
    intro acc hacc
    rw [List.foldl_cons, ih (insertByDate b acc) (pairwise_insertByDate hacc),
      filter_insertByDate hacc, List.filter_cons]
    by_cases hb : b.Date = d <;> simp [hb]

theorem filter_sortByDate {d : Nat} (l : List Backup) :
    (sortByDate l).filter (fun x => x.Date == d) =
      l.filter (fun x => x.Date == d) := by
  rw [sortByDate, filter_sortByDate_fold l [] List.Pairwise.nil]
  simp

/-! Lemmas for the stable descending sort of the retention policy. -/

/-- Descending date order. -/
def dateGe (a b : Backup) : Prop := b.Date ≤ a.Date

theorem perm_insertByDateDesc (b : Backup) (l : List Backup) :
    (insertByDateDesc b l).Perm (b :: l) := by
  induction l with
  | nil => simp [insertByDateDesc]
  | cons c cs ih =>
    by_cases h : c.Date < b.Date
    · rw [insertByDateDesc, if_pos h]
    · rw [insertByDateDesc, if_neg h]
      exact List.Perm.trans (List.Perm.cons c ih) (List.Perm.swap b c cs)

theorem perm_sortByDateDesc_fold (l : List Backup) :
    ∀ acc : List Backup,
      (l.foldl (fun acc b => insertByDateDesc b acc) acc).Perm (acc ++ l) := by
  induction l with
  | nil => intro acc; simp
  | cons b bs ih =>
    intro acc
    rw [List.foldl_cons]
    refine List.Perm.trans (ih (insertByDateDesc b acc)) ?_
    refine List.Perm.trans (List.Perm.append_right bs
      (perm_insertByDateDesc b acc)) ?_
    exact List.Perm.symm (List.perm_middle)

theorem perm_sortByDateDesc (l : List Backup) :
    (sortByDateDesc l).Perm l := by
  simpa using perm_sortByDateDesc_fold l []

theorem mem_insertByDateDesc {a b : Backup} {l : List Backup} :
    a ∈ insertByDateDesc b l ↔ a = b ∨ a ∈ l := by
  rw [(perm_insertByDateDesc b l).mem_iff]
  simp

theorem pairwise_insertByDateDesc {b : Backup} {l : List Backup}
    (h : l.Pairwise dateGe) : (insertByDateDesc b l).Pairwise dateGe := by
  induction l with
  | nil => simp [insertByDateDesc, List.pairwise_cons]
  | cons c cs ih =>
    rcases List.pairwise_cons.mp h with ⟨hc, hcs⟩
    by_cases hlt : c.Date < b.Date
    · rw [insertByDateDesc, if_pos hlt]
      refine List.pairwise_cons.mpr ⟨?_, h⟩
      intro x hx
      rcases List.mem_cons.mp hx with rfl | hx
      · exact Nat.le_of_lt hlt
      · exact Nat.le_trans (hc x hx) (Nat.le_of_lt hlt)
    · rw [insertByDateDesc, if_neg hlt]
      refine List.pairwise_cons.mpr ⟨?_, ih hcs⟩
      intro x hx
      rcases mem_insertByDateDesc.mp hx with rfl | hx
      · exact Nat.le_of_not_lt hlt
      · exact hc x hx

theorem pairwise_sortByDateDesc (l : List Backup) :
    (sortByDateDesc l).Pairwise dateGe := by
  have general : ∀ acc : List Backup, acc.Pairwise dateGe →
      (l.foldl (fun acc b => insertByDateDesc b acc) acc).Pairwise dateGe := by
    induction l with
    | nil => intro acc h; exact h
    | cons b bs ih =>
      intro acc h
      exact ih (insertByDateDesc b acc) (pairwise_insertByDateDesc h)
  exact general [] List.Pairwise.nil

/-! String prefix lemmas for RemoveBackup. -/

theorem charsStarts_iff {s p : List Char} :
    charsStarts s p = true ↔ ∃ t, p ++ t = s := by
  induction p generalizing s with
  | nil =>
    simp [charsStarts]
  | cons c cs ih =>
    cases s with
    | nil => simp [charsStarts]
    | cons x xs =>
      rw [charsStarts, Bool.and_eq_true, beq_iff_eq, ih]
      constructor
      · rintro ⟨rfl, t, rfl⟩
        exact ⟨t, rfl⟩
      · rintro ⟨t, ht⟩
        rw [List.cons_append] at ht
        injection ht with h1 h2
        exact ⟨h1.symm, t, h2⟩

theorem stringDataAppend (a b : String) : (a ++ b).data = a.data ++ b.data := rfl

theorem stringDataNil {s : String} : s.data = [] ↔ s = "" := by
  cases s
  simp [String.ext_iff]

theorem goStarts_trans {a b c : String} (h1 : goStarts b a = true)
    (h2 : goStarts c b = true) : goStarts c a = true := by
  rw [goStarts, charsStarts_iff] at h1 h2 ⊢
  rcases h1 with ⟨t1, ht1⟩
  rcases h2 with ⟨t2, ht2⟩
  exact ⟨t1 ++ t2, by rw [← List.append_assoc, ht1, ht2]⟩

theorem pathJoin_mono {p n1 n2 : String} (h : goStarts n2 n1 = true) :
    goStarts (pathJoin p n2) (pathJoin p n1) = true := by
  by_cases hp : p = ""
  · simpa [pathJoin, hp] using h
  · by_cases h1 : n1 = ""
    · subst h1
      by_cases h2 : n2 = ""
      · subst h2
        simp only [pathJoin, if_neg hp, if_pos rfl, goStarts, charsStarts_iff]
        exact ⟨[], by simp⟩
      · simp only [pathJoin, if_neg hp, if_pos rfl, if_neg h2, goStarts,
          charsStarts_iff]
        refine ⟨("/" ++ n2).data, ?_⟩
        simp [stringDataAppend, List.append_assoc]
    · have h2 : n2 ≠ "" := by
        rw [goStarts, charsStarts_iff] at h
        rcases h with ⟨t, ht⟩
        intro hn2
        subst hn2
        have h0 : n1.data ++ t = [] := ht
        exact h1 (stringDataNil.mp (List.append_eq_nil.mp h0).1)
      simp only [pathJoin, if_neg hp, if_neg h1, if_neg h2, goStarts,
        charsStarts_iff]
      rw [goStarts, charsStarts_iff] at h
      rcases h with ⟨t, ht⟩
      refine ⟨t, ?_⟩
      rw [stringDataAppend, stringDataAppend, stringDataAppend,
        stringDataAppend, List.append_assoc, List.append_assoc, ht]
      simp [List.append_assoc]

/-! Lemmas about the upload producer walk. -/

theorem producerWalk_no_diff (dt : String → Option DiffEntry)
    (tree : List LocalFile) (h : ∀ f ∈ tree, f.readable = true) :
    producerWalk "" dt tree =
      (tree.map (fun f => ⟨f.relPath, f.content⟩), [], none) := by
  induction tree with
  | nil => rfl
  | cons f fs ih =>
    have hf := h f (List.mem_cons_self f fs)
    rw [producerWalk]
    simp [hf, ih (fun g hg => h g (List.mem_cons_of_mem f hg))]

theorem uploadHardlinks_no_diff (dt : String → Option DiffEntry)
    (tree : List LocalFile) : (producerWalk "" dt tree).2.1 = [] := by
  induction tree with
  | nil => rfl
  | cons f fs ih =>
    rw [producerWalk]
    by_cases hf : f.readable <;> simp [hf, ih]

theorem mem_producerWalk_entries {dfp : String} {dt : String → Option DiffEntry}
    {tree : List LocalFile} {e : TarEntry}
    (h : e ∈ (producerWalk dfp dt tree).1) : e.name ∈ tree.map LocalFile.relPath := by
  induction tree with
  | nil => simp [producerWalk] at h
  | cons f fs ih =>
    rw [producerWalk] at h
    by_cases hf : f.readable
    · simp only [hf, if_true] at h
      by_cases hl : (dfp ≠ "" &&
          (match dt f.relPath with
           | some d => d.fid == f.fid
           | none => false) : Bool) = true
      · rw [if_pos hl] at h
        exact List.mem_cons_of_mem _ (ih h)
      · rw [if_neg hl] at h
        rcases List.mem_cons.mp h with rfl | h
        · exact List.mem_cons_self _ _
        · exact List.mem_cons_of_mem _ (ih h)
    · simp [hf] at h

theorem mem_producerWalk_hardlinks {dfp : String}
    {dt : String → Option DiffEntry} {tree : List LocalFile} {x : String}
    (h : x ∈ (producerWalk dfp dt tree).2.1) :
    x ∈ tree.map LocalFile.relPath := by
  induction tree with
  | nil => simp [producerWalk] at h
  | cons f fs ih =>
    rw [producerWalk] at h
    by_cases hf : f.readable
    · simp only [hf, if_true] at h
      by_cases hl : (dfp ≠ "" &&
          (match dt f.relPath with
           | some d => d.fid == f.fid
           | none => false) : Bool) = true
      · rw [if_pos hl] at h
        rcases List.mem_cons.mp h with rfl | h
        · exact List.mem_cons_self _ _
        · exact List.mem_cons_of_mem _ (ih h)
      · rw [if_neg hl] at h
        exact List.mem_cons_of_mem _ (ih h)
    · simp [hf] at h

theorem producerWalk_cons_hardlink {dfp : String}
    {dt : String → Option DiffEntry} {g : LocalFile} {gs : List LocalFile}
    {d : DiffEntry} (hg : g.readable = true) (hdfp : dfp ≠ "")
    (hd : dt g.relPath = some d) (hfid : d.fid = g.fid) :
    producerWalk dfp dt (g :: gs) =
      ((producerWalk dfp dt gs).1, g.relPath :: (producerWalk dfp dt gs).2.1,
        (producerWalk dfp dt gs).2.2) := by
  rw [producerWalk]
  simp [hg, hdfp, hd, hfid]

theorem producerWalk_cons_data {dfp : String}
    {dt : String → Option DiffEntry} {g : LocalFile} {gs : List LocalFile}
    (hg : g.readable = true)
    (hnot : ¬ ∃ d, dt g.relPath = some d ∧ d.fid = g.fid) :
    producerWalk dfp dt (g :: gs) =
      (⟨g.relPath, g.content⟩ :: (producerWalk dfp dt gs).1,
        (producerWalk dfp dt gs).2.1, (producerWalk dfp dt gs).2.2) := by
  rw [producerWalk]
  have hgfalse : (match dt g.relPath with
      | some d => d.fid == g.fid
      | none => false) = false := by
    cases hdt : dt g.relPath with
    | none => rfl
    | some d =>
      simp only [beq_eq_false_iff_ne, ne_eq]
      intro heq
      exact hnot ⟨d, hdt, heq⟩
  simp [hg, hgfalse]

theorem producerWalk_hardlink_char {dfp : String}
    {dt : String → Option DiffEntry} (hdfp : dfp ≠ "")
    (tree : List LocalFile) (hread : ∀ f ∈ tree, f.readable = true)
    (hnodup : (tree.map LocalFile.relPath).Nodup) :
    ∀ f ∈ tree,
      ((f.relPath ∈ (producerWalk dfp dt tree).2.1 ↔
          ∃ d, dt f.relPath = some d ∧ d.fid = f.fid)
        ∧ (TarEntry.mk f.relPath f.content ∈ (producerWalk dfp dt tree).1 ↔
            ¬ ∃ d, dt f.relPath = some d ∧ d.fid = f.fid)) := by
  induction tree with
  | nil => intro f hf; simp at hf
  | cons g gs ih =>
    have hg := hread g (List.mem_cons_self g gs)
    have hgs : ∀ f ∈ gs, f.readable = true :=
      fun f hf => hread f (List.mem_cons_of_mem g hf)
    have hnodup2 : (gs.map LocalFile.relPath).Nodup :=
      (List.nodup_cons.mp hnodup).2
    have hgnot : g.relPath ∉ gs.map LocalFile.relPath :=
      (List.nodup_cons.mp hnodup).1
    intro f hf
    rcases List.mem_cons.mp hf with rfl | hfgs
    · by_cases hm : ∃ d, dt f.relPath = some d ∧ d.fid = f.fid
      · rcases hm with ⟨d, hd, hfid⟩
        rw [producerWalk_cons_hardlink hg hdfp hd hfid]
        refine ⟨⟨fun _ => ⟨d, hd, hfid⟩, fun _ => List.mem_cons_self _ _⟩, ?_, ?_⟩
        · intro hmem
          exact absurd (mem_producerWalk_entries hmem) hgnot
        · intro hn
          exact absurd ⟨d, hd, hfid⟩ hn
      · rw [producerWalk_cons_data hg hm]
        refine ⟨⟨?_, fun hc => absurd hc hm⟩, by simp [hm]⟩
        intro hmem
        exact absurd (mem_producerWalk_hardlinks hmem) hgnot
    · have hne : f.relPath ≠ g.relPath := by
        intro heq
        exact hgnot (heq ▸ List.mem_map_of_mem LocalFile.relPath hfgs)
      have ihf := ih hgs hnodup2 f hfgs
      by_cases hm : ∃ d, dt g.relPath = some d ∧ d.fid = g.fid
      · rcases hm with ⟨d, hd, hfid⟩
        rw [producerWalk_cons_hardlink hg hdfp hd hfid]
        refine ⟨?_, ihf.2⟩
        rw [List.mem_cons]
        constructor
        · rintro (h | h)
          · exact absurd h hne
          · exact ihf.1.mp h
        · intro h
          exact Or.inr (ihf.1.mpr h)
      · rw [producerWalk_cons_data hg hm]
        refine ⟨ihf.1, ?_⟩
        rw [List.mem_cons]
        constructor
        · rintro (h | h)
          · exact absurd (congrArg TarEntry.name h) hne
          · exact ihf.2.mp h
        · intro h
          exact Or.inr (ihf.2.mpr h)

/-! Extraction and upload plumbing lemmas. -/

theorem extractLoop_no_meta (es : List TarEntry) (mf : MetaFile)
    (h : ∀ e ∈ es, e.name ≠ MetaFileName) :
    extractLoop es mf =
      Except.ok (es.map (fun e => (e.name, e.content)), mf) := by
  induction es with
  | nil => rfl
  | cons e rest ih =>
    rw [extractLoop]
    rw [if_neg (h e (List.mem_cons_self e rest))]
    rw [ih (fun x hx => h x (List.mem_cons_of_mem e hx))]
    simp

theorem goBase_ne_empty (p : String) : goBase p ≠ "" := by
  rw [goBase]
  by_cases hp : p = ""
  · simp [hp]
  · rw [if_neg hp]
    cases hlast : ((goSplit p '/').filter (fun c => c ≠ "")).getLast? with
    | none => simp
    | some c =>
      simp only
      have hex := List.mem_getLast?_eq_getLast (l := (goSplit p '/').filter (fun c => c ≠ "")) hlast
      rcases hex with ⟨hne, rfl⟩
      have hc := List.getLast_mem hne
      have := List.of_mem_filter hc
      simpa using this

theorem compressedStreamUpload_ok (env : UploadEnv) (tree : List LocalFile)
    (dfp : String) (dt : String → Option DiffEntry)
    (hprobe : env.probe = some Err.notFound ∨ env.probe = none)
    (hput : env.putFileOk = true)
    (hdiff : dfp = "" ∨ env.diffStat = some true) :
    compressedStreamUpload env tree dfp dt =
      Except.ok (uploadArchive tree dfp dt) := by
  have hpipe : uploadPipe env tree dfp dt =
      Except.ok (uploadArchive tree dfp dt) := by
    rw [uploadPipe]
    simp [hput]
  rcases hdiff with rfl | hd
  · rcases hprobe with hp | hp <;> simp [compressedStreamUpload, hp, hpipe]
  · rcases hprobe with hp | hp <;> by_cases hdfp : dfp = "" <;>
      first
        | (subst hdfp; simp [compressedStreamUpload, hp, hd, hpipe])
        | simp [compressedStreamUpload, hp, hd, hdfp, hpipe]

/-! Accumulator-map and walk-event lemmas for the catalog classification. -/

theorem alGet_alSet (st : List (String × ClickhouseBackup)) (k n : String)
    (v : ClickhouseBackup) :
    alGet (alSet st k v) n = if k = n then some v else alGet st n := by
  induction st with
  | nil =>
    rw [alSet, alGet]
    by_cases h : k = n <;> simp [h, alGet]
  | cons kv rest ih =>
    obtain ⟨q, w⟩ := kv
    by_cases hq : q = k
    · subst hq
      rw [alSet, if_pos rfl, alGet, alGet]
      by_cases hn : q = n <;> simp [hn]
    · rw [alSet, if_neg hq, alGet, alGet, ih]
      by_cases hn : q = n
      · subst hn
        rw [if_pos rfl, if_pos rfl, if_neg (fun h => hq h.symm)]
      · rw [if_neg hn, if_neg hn]

theorem alGet_isSome_iff_mem (st : List (String × ClickhouseBackup))
    (n : String) :
    (alGet st n).isSome = true ↔ n ∈ st.map Prod.fst := by
  induction st with
  | nil => simp [alGet]
  | cons kv rest ih =>
    obtain ⟨q, w⟩ := kv
    by_cases hq : q = n
    · subst hq
      simp [alGet]
    · rw [alGet, if_neg hq]
      simp only [List.map_cons, List.mem_cons, ih]
      constructor
      · exact fun h => Or.inr h
      · rintro (rfl | h)
        · exact absurd rfl hq
        · exact h

theorem observesMarker_append (p : String) (keys : List RemoteFile)
    (o : RemoteFile) (n seg : String) :
    observesMarker p (keys ++ [o]) n seg =
      (observesMarker p keys n seg || hasMarkerKey p n seg o) := by
  simp [observesMarker, List.any_append]

theorem observesName_append (p : String) (keys : List RemoteFile)
    (o : RemoteFile) (n : String) :
    observesName p (keys ++ [o]) n =
      (observesName p keys n || hasNameKey p n o) := by
  simp [observesName, List.any_append]

theorem step_not_relevant {p : String} {o : RemoteFile}
    (st : List (String × ClickhouseBackup)) (hrel : relevantB p o = false) :
    backupListStep p st o = st := by
  rw [backupListStep, if_neg]
  rw [relevantB] at hrel
  simp [hrel]

theorem step_archive {p : String} {o : RemoteFile}
    (st : List (String × ClickhouseBackup)) (hrel : relevantB p o = true)
    (hk : isArchiveName (part0 p o) = true)
    (hlen : ¬ 1 < (keyParts p o).length) :
    backupListStep p st o =
      alSet st (part0 p o) ⟨false, false, true, o.size, o.lastModified⟩ := by
  rw [relevantB] at hrel
  rw [backupListStep, if_pos hrel]
  rw [part0] at hk
  simp only [hk, if_true, if_neg hlen]
  rw [part0]

theorem step_plain_short {p : String} {o : RemoteFile}
    (st : List (String × ClickhouseBackup)) (hrel : relevantB p o = true)
    (hk : isArchiveName (part0 p o) = false)
    (hlen : ¬ 1 < (keyParts p o).length) :
    backupListStep p st o = st := by
  rw [relevantB] at hrel
  rw [backupListStep, if_pos hrel]
  rw [part0] at hk
  simp only [hk, Bool.false_eq_true, if_false, if_neg hlen]

theorem step_multi_plain {p : String} {o : RemoteFile}
    (st : List (String × ClickhouseBackup)) (hrel : relevantB p o = true)
    (hk : isArchiveName (part0 p o) = false)
    (hlen : 1 < (keyParts p o).length) :
    backupListStep p st o =
      alSet st (part0 p o)
        ⟨((alGet st (part0 p o)).getD zeroCB).Metadata ||
            ((keyParts p o).getD 1 "" == "metadata"),
          ((alGet st (part0 p o)).getD zeroCB).Shadow ||
            ((keyParts p o).getD 1 "" == "shadow"),
          false, ((alGet st (part0 p o)).getD zeroCB).Size,
          ((alGet st (part0 p o)).getD zeroCB).Date⟩ := by
  rw [relevantB] at hrel
  rw [backupListStep, if_pos hrel]
  rw [part0] at hk
  simp only [hk, Bool.false_eq_true, if_false, if_pos hlen]
  rw [part0]

theorem hasMarkerKey_not_rel {p n seg : String} {o : RemoteFile}
    (h : relevantB p o = false) : hasMarkerKey p n seg o = false := by
  simp [hasMarkerKey, h]

theorem hasNameKey_not_rel {p n : String} {o : RemoteFile}
    (h : relevantB p o = false) : hasNameKey p n o = false := by
  simp [hasNameKey, h]

theorem hasMarkerKey_short {p n seg : String} {o : RemoteFile}
    (h : ¬ 1 < (keyParts p o).length) : hasMarkerKey p n seg o = false := by
  simp [hasMarkerKey, h]

theorem hasNameKey_ne {p n : String} {o : RemoteFile}
    (h : ¬ part0 p o = n) : hasNameKey p n o = false := by
  simp [hasNameKey, h]

theorem hasMarkerKey_ne {p n seg : String} {o : RemoteFile}
    (h : ¬ part0 p o = n) : hasMarkerKey p n seg o = false := by
  simp [hasMarkerKey, h]

theorem hasNameKey_self {p : String} {o : RemoteFile}
    (hrel : relevantB p o = true) : hasNameKey p (part0 p o) o = true := by
  simp [hasNameKey, hrel]

theorem hasMarkerKey_self {p seg : String} {o : RemoteFile}
    (hrel : relevantB p o = true) (hlen : 1 < (keyParts p o).length) :
    hasMarkerKey p (part0 p o) seg o = ((keyParts p o).getD 1 "" == seg) := by
  simp [hasMarkerKey, hrel, hlen]

theorem InvCB_step {p : String} {H : List RemoteFile}
    {st : List (String × ClickhouseBackup)} {o : RemoteFile}
    (hInv : InvCB p H st)
    (hside : relevantB p o = true → 1 < (keyParts p o).length →
      isArchiveName (part0 p o) = false) :
    InvCB p (H ++ [o]) (backupListStep p st o) := by
  by_cases hrel : relevantB p o = true
  · by_cases hlen : 1 < (keyParts p o).length
    · have hk := hside hrel hlen
      rw [step_multi_plain st hrel hk hlen]
      intro n
      rcases hInv n with ⟨h1, h2, h3⟩
      by_cases hn : part0 p o = n
      · subst hn
        refine ⟨?_, ?_, ?_⟩
        · intro ha
          rw [ha] at hk
          exact absurd hk (by simp)
        · intro _ e he
          rw [alGet_alSet, if_pos rfl] at he
          have he' := Option.some.inj he
          subst he'
          refine ⟨rfl, ?_, ?_⟩
          · rw [observesMarker_append, hasMarkerKey_self hrel hlen]
            cases halG : alGet st (part0 p o) with
            | some e0 => simp [Option.getD_some, (h2 hk e0 halG).2.1]
            | none => simp [Option.getD_none, zeroCB, (h3 hk halG).1]
          · rw [observesMarker_append, hasMarkerKey_self hrel hlen]
            cases halG : alGet st (part0 p o) with
            | some e0 => simp [Option.getD_some, (h2 hk e0 halG).2.2]
            | none => simp [Option.getD_none, zeroCB, (h3 hk halG).2]
        · intro _ hnone
          rw [alGet_alSet, if_pos rfl] at hnone
          exact absurd hnone (by simp)
      · have hget : alGet (alSet st (part0 p o)
            ⟨((alGet st (part0 p o)).getD zeroCB).Metadata ||
                ((keyParts p o).getD 1 "" == "metadata"),
              ((alGet st (part0 p o)).getD zeroCB).Shadow ||
                ((keyParts p o).getD 1 "" == "shadow"),
              false, ((alGet st (part0 p o)).getD zeroCB).Size,
              ((alGet st (part0 p o)).getD zeroCB).Date⟩) n = alGet st n := by
          rw [alGet_alSet, if_neg hn]
        refine ⟨?_, ?_, ?_⟩
        · intro ha
          rw [hget, observesName_append, hasNameKey_ne hn, Bool.or_false]
          exact h1 ha
        · intro ha e he
          rw [hget] at he
          simp only [observesMarker_append, hasMarkerKey_ne hn, Bool.or_false]
          exact h2 ha e he
        · intro ha hnone
          rw [hget] at hnone
          simp only [observesMarker_append, hasMarkerKey_ne hn, Bool.or_false]
          exact h3 ha hnone
    · by_cases hk : isArchiveName (part0 p o) = true
      · rw [step_archive st hrel hk hlen]
        intro n
        rcases hInv n with ⟨h1, h2, h3⟩
        by_cases hn : part0 p o = n
        · subst hn
          refine ⟨?_, ?_, ?_⟩
          · intro _
            constructor
            · rw [alGet_alSet, if_pos rfl, observesName_append,
                hasNameKey_self hrel]
              simp
            · intro e he
              rw [alGet_alSet, if_pos rfl] at he
              have he' := Option.some.inj he
              subst he'
              exact ⟨rfl, rfl, rfl⟩
          · intro ha
            exact absurd hk (by simp [ha])
          · intro ha
            exact absurd hk (by simp [ha])
        · have hget : alGet (alSet st (part0 p o)
              ⟨false, false, true, o.size, o.lastModified⟩) n = alGet st n := by
            rw [alGet_alSet, if_neg hn]
          refine ⟨?_, ?_, ?_⟩
          · intro ha
            rw [hget, observesName_append, hasNameKey_ne hn, Bool.or_false]
            exact h1 ha
          · intro ha e he
            rw [hget] at he
            simp only [observesMarker_append, hasMarkerKey_short hlen,
              Bool.or_false]
            exact h2 ha e he
          · intro ha hnone
            rw [hget] at hnone
            simp only [observesMarker_append, hasMarkerKey_short hlen,
              Bool.or_false]
            exact h3 ha hnone
      · have hk' : isArchiveName (part0 p o) = false := by
          simpa using hk
        rw [step_plain_short st hrel hk' hlen]
        intro n
        rcases hInv n with ⟨h1, h2, h3⟩
        refine ⟨?_, ?_, ?_⟩
        · intro ha
          have hne : ¬ part0 p o = n := by
            intro heq
            rw [heq] at hk'
            rw [ha] at hk'
            exact absurd hk' (by simp)
          rw [observesName_append, hasNameKey_ne hne, Bool.or_false]
          exact h1 ha
        · intro ha e he
          simp only [observesMarker_append, hasMarkerKey_short hlen,
            Bool.or_false]
          exact h2 ha e he
        · intro ha hnone
          simp only [observesMarker_append, hasMarkerKey_short hlen,
            Bool.or_false]
          exact h3 ha hnone
  · have hrel' : relevantB p o = false := by simpa using hrel
    rw [step_not_relevant st hrel']
    intro n
    rcases hInv n with ⟨h1, h2, h3⟩
    refine ⟨?_, ?_, ?_⟩
    · intro ha
      rw [observesName_append, hasNameKey_not_rel hrel', Bool.or_false]
      exact h1 ha
    · intro ha e he
      simp only [observesMarker_append, hasMarkerKey_not_rel hrel',
        Bool.or_false]
      exact h2 ha e he
    · intro ha hnone
      simp only [observesMarker_append, hasMarkerKey_not_rel hrel',
        Bool.or_false]
      exact h3 ha hnone

theorem InvCB_nil (p : String) : InvCB p [] [] := by
  intro n
  refine ⟨?_, ?_, ?_⟩
  · intro _
    constructor
    · simp [alGet, observesName]
    · intro e he
      simp [alGet] at he
  · intro _ e he
    simp [alGet] at he
  · intro _ _
    simp [observesMarker]

theorem InvCB_fold {p : String} (K : List RemoteFile) :
    ∀ (H : List RemoteFile) (st : List (String × ClickhouseBackup)),
      InvCB p H st →
      (∀ o ∈ K, relevantB p o = true → 1 < (keyParts p o).length →
        isArchiveName (part0 p o) = false) →
      InvCB p (H ++ K) (K.foldl (backupListStep p) st) := by
  induction K with
  | nil =>
    intro H st h _
    simpa using h
  | cons o K ih =>
    intro H st h hside
    rw [List.foldl_cons]
    have h1 := InvCB_step h (hside o (List.mem_cons_self o K))
    have h2 := ih (H ++ [o]) (backupListStep p st o) h1
      (fun x hx => hside x (List.mem_cons_of_mem o hx))
    simpa [List.append_assoc] using h2

theorem InvCB_backupListFiles (p : String) (keys : List RemoteFile)
    (hside : noSuffixDirs p keys) :
    InvCB p keys (backupListFiles p keys) := by
  have h := InvCB_fold keys [] [] (InvCB_nil p) hside
  simpa [backupListFiles] using h

theorem name_mem_backupListPre {files : List (String × ClickhouseBackup)}
    {iter : List String} {n : String} :
    (∃ b ∈ backupListPre files iter, b.Name = n) ↔
      n ∈ iter ∧ ∃ e, alGet files n = some e ∧ validCB e = true := by
  rw [backupListPre]
  constructor
  · rintro ⟨b, hb, rfl⟩
    rcases List.mem_filterMap.mp hb with ⟨m, hm, hmb⟩
    cases halG : alGet files m with
    | none =>
      rw [halG] at hmb
      simp at hmb
    | some e =>
      rw [halG] at hmb
      by_cases hv : validCB e = true
      · have hb2 : b = ⟨m, e.Size, e.Date⟩ := by
          simp [hv] at hmb
          exact hmb.symm
        rw [hb2]
        exact ⟨hm, e, halG, hv⟩
      · simp [hv] at hmb
  · rintro ⟨hn, e, he, hv⟩
    refine ⟨⟨n, e.Size, e.Date⟩, List.mem_filterMap.mpr ⟨n, hn, ?_⟩, rfl⟩
    rw [he]
    simp [hv]

theorem name_mem_backupListIter {p : String} {keys : List RemoteFile}
    {iter : List String} {n : String}
    (hperm : iter.Perm ((backupListFiles p keys).map Prod.fst)) :
    (∃ b ∈ backupListIter p keys iter, b.Name = n) ↔
      ∃ e, alGet (backupListFiles p keys) n = some e ∧ validCB e = true := by
  have hmemsort : ∀ b : Backup, b ∈ backupListIter p keys iter ↔
      b ∈ backupListPre (backupListFiles p keys) iter := by
    intro b
    exact mem_sortByDate
  constructor
  · rintro ⟨b, hb, rfl⟩
    have h := (name_mem_backupListPre).mp ⟨b, (hmemsort b).mp hb, rfl⟩
    exact h.2
  · rintro ⟨e, he, hv⟩
    have hnin : n ∈ iter := by
      rw [hperm.mem_iff, ← alGet_isSome_iff_mem]
      simp [he]
    rcases name_mem_backupListPre.mpr ⟨hnin, e, he, hv⟩ with ⟨b, hb, hbn⟩
    exact ⟨b, (hmemsort b).mpr hb, hbn⟩

/-! The claims. -/

/-- Claim C3, amended: over any walk order and any admissible map iteration
order, provided no candidate name with a recognized archive suffix also
occurs as the first segment of a multi-segment key, a candidate name
appears in the BackupList catalog if and only if (a metadata marker key
and a shadow marker key for it were both observed) or (the name carries a
recognized single-file archive suffix and some key with that first segment
was observed). Without the proviso the equivalence fails, because the
archive-suffix branch resets the markers and the multi-segment branch
drops the Tar flag (see the counterexample). -/
theorem c3_catalog_classification (p : String) (keys : List RemoteFile)
    (iter : List String) (n : String) (hside : noSuffixDirs p keys)
    (hperm : iter.Perm ((backupListFiles p keys).map Prod.fst)) :
    (∃ b ∈ backupListIter p keys iter, b.Name = n) ↔
      ((observesMarker p keys n "metadata" = true ∧
          observesMarker p keys n "shadow" = true) ∨
        (isArchiveName n = true ∧ observesName p keys n = true)) := by
  rw [name_mem_backupListIter hperm]
  have hInv := InvCB_backupListFiles p keys hside
  rcases hInv n with ⟨h1, h2, h3⟩
  by_cases ha : isArchiveName n = true
  · have hnomark : ∀ seg, observesMarker p keys n seg = false := by
      intro seg
      cases hvv : observesMarker p keys n seg with
      | false => rfl
      | true =>
        rcases List.any_eq_true.mp hvv with ⟨o, ho, hkey⟩
        simp only [hasMarkerKey, Bool.and_eq_true, beq_iff_eq,
          decide_eq_true_eq] at hkey
        rcases hkey with ⟨⟨⟨hr, hp0⟩, hlen⟩, _⟩
        have hfalse := hside o ho hr hlen
        rw [hp0] at hfalse
        rw [hfalse] at ha
        exact absurd ha (by simp)
    constructor
    · rintro ⟨e, he, _⟩
      right
      refine ⟨ha, ((h1 ha).1).mp ?_⟩
      simp [he]
    · rintro (⟨hm, _⟩ | ⟨_, hobs⟩)
      · rw [hnomark "metadata"] at hm
        exact absurd hm (by simp)
      · have hsome := ((h1 ha).1).mpr hobs
        cases he : alGet (backupListFiles p keys) n with
        | none =>
          rw [he] at hsome
          simp at hsome
        | some e =>
          refine ⟨e, rfl, ?_⟩
          rcases (h1 ha).2 e he with ⟨ht, _, _⟩
          simp [validCB, ht]
  · have ha' : isArchiveName n = false := by simpa using ha
    constructor
    · rintro ⟨e, he, hv⟩
      left
      rcases h2 ha' e he with ⟨ht, hme, hse⟩
      rw [validCB, ht] at hv
      simp only [Bool.or_false, Bool.and_eq_true] at hv
      exact ⟨by rw [← hme]; exact hv.1, by rw [← hse]; exact hv.2⟩
    · rintro (⟨hm, hs⟩ | ⟨hfalse, _⟩)
      · cases he : alGet (backupListFiles p keys) n with
        | none =>
          rcases h3 ha' he with ⟨hm0, _⟩
          rw [hm0] at hm
          exact absurd hm (by simp)
        | some e =>
          refine ⟨e, rfl, ?_⟩
          rcases h2 ha' e he with ⟨ht, hme, hse⟩
          rw [validCB, ht, hme, hse, hm, hs]
          simp
      · rw [hfalse] at ha'
        exact absurd ha' (by simp)

/-- Claim C3, counterexample to the claim as stated: for the key set
containing n.tar/metadata/x and n.tar/shadow/y, the metadata and the
shadow marker of candidate name n.tar are both observed (and the name even
carries the .tar suffix and is observed as a first segment), yet BackupList
returns an empty catalog, because each key first fires the archive-suffix
branch (resetting the markers) and then the multi-segment branch (dropping
the Tar flag). -/
theorem c3_counterexample :
    observesMarker "" [⟨"n.tar/metadata/x", 1, 1⟩, ⟨"n.tar/shadow/y", 2, 2⟩]
        "n.tar" "metadata" = true
      ∧ observesMarker "" [⟨"n.tar/metadata/x", 1, 1⟩, ⟨"n.tar/shadow/y", 2, 2⟩]
          "n.tar" "shadow" = true
      ∧ isArchiveName "n.tar" = true
      ∧ observesName "" [⟨"n.tar/metadata/x", 1, 1⟩, ⟨"n.tar/shadow/y", 2, 2⟩]
          "n.tar" = true
      ∧ backupList "" [⟨"n.tar/metadata/x", 1, 1⟩, ⟨"n.tar/shadow/y", 2, 2⟩] =
          [] := by
  refine ⟨by decide, by decide, by decide, by decide, by decide⟩

/-- Claim C3, witness for the amended classification at the concrete
scenario of the claim: bk2 is in the catalog, bk3 is not, and the full
catalog holds exactly the bk1.tar entry and bk2 (with the zero date and
size the multi-segment branch leaves behind). -/
theorem c3_witness :
    (∃ b ∈ backupListIter "" [⟨"bk1.tar", 10, 5⟩, ⟨"bk2/metadata/x", 1, 1⟩,
        ⟨"bk2/shadow/y", 2, 2⟩, ⟨"bk3/metadata/x", 3, 3⟩]
        ["bk1.tar", "bk2", "bk3"], b.Name = "bk2")
      ∧ ¬ (∃ b ∈ backupListIter "" [⟨"bk1.tar", 10, 5⟩, ⟨"bk2/metadata/x", 1, 1⟩,
          ⟨"bk2/shadow/y", 2, 2⟩, ⟨"bk3/metadata/x", 3, 3⟩]
          ["bk1.tar", "bk2", "bk3"], b.Name = "bk3")
      ∧ backupList "" [⟨"bk1.tar", 10, 5⟩, ⟨"bk2/metadata/x", 1, 1⟩,
          ⟨"bk2/shadow/y", 2, 2⟩, ⟨"bk3/metadata/x", 3, 3⟩] =
          [⟨"bk2", 0, 0⟩, ⟨"bk1.tar", 10, 5⟩] := by
  refine ⟨?_, ?_, by decide⟩
  · exact (c3_catalog_classification "" _ _ "bk2"
      (by unfold noSuffixDirs; decide) (by decide)).mpr
      (Or.inl ⟨by decide, by decide⟩)
  · intro hmem
    have h := (c3_catalog_classification "" _ _ "bk3"
      (by unfold noSuffixDirs; decide) (by decide)).mp hmem
    rcases h with ⟨hm, hs⟩ | ⟨ha, _⟩
    · exact absurd hs (by decide)
    · exact absurd ha (by decide)

/-- Claim C7, amended: for every walk and every map iteration order, the
catalog BackupList returns is sorted ascending by date, and the sort is
stable with respect to the order in which the result loop emitted the
entries: for every date, the equal-date entries appear in the output
exactly as in the pre-sort list. The tie order is therefore that of the
unspecified Go map iteration, not necessarily the first-seen order of the
walk (see the counterexample). -/
theorem c7_catalog_sorted (p : String) (keys : List RemoteFile)
    (iter : List String) :
    (backupListIter p keys iter).Pairwise dateLe
      ∧ ∀ d : Nat,
        (backupListIter p keys iter).filter (fun b => b.Date == d) =
          (backupListPre (backupListFiles p keys) iter).filter
            (fun b => b.Date == d) := by
  exact ⟨pairwise_sortByDate _, fun d => filter_sortByDate _⟩

/-- Claim C7, counterexample to the stated tie-break rule: the names are
first seen in the order a, b, both candidates end up with equal (zero)
dates, yet the admissible map iteration order b, a makes BackupList return
b before a, so equal-date entries do not keep first-seen relative order. -/
theorem c7_counterexample :
    (["b", "a"] : List String).Perm
        ((backupListFiles "" [⟨"a/metadata/m", 1, 3⟩, ⟨"a/shadow/s", 1, 3⟩,
          ⟨"b/metadata/m", 1, 3⟩, ⟨"b/shadow/s", 1, 3⟩]).map Prod.fst)
      ∧ (backupListFiles "" [⟨"a/metadata/m", 1, 3⟩, ⟨"a/shadow/s", 1, 3⟩,
          ⟨"b/metadata/m", 1, 3⟩, ⟨"b/shadow/s", 1, 3⟩]).map Prod.fst =
          ["a", "b"]
      ∧ backupListIter "" [⟨"a/metadata/m", 1, 3⟩, ⟨"a/shadow/s", 1, 3⟩,
          ⟨"b/metadata/m", 1, 3⟩, ⟨"b/shadow/s", 1, 3⟩] ["b", "a"] =
          [⟨"b", 0, 0⟩, ⟨"a", 0, 0⟩] := by
  refine ⟨by decide, by decide, by decide⟩

/-- Claim C10: BackupList is not a deterministic function of the set of
walked keys: the same three keys delivered in two different walk orders
yield different catalogs (empty versus the single-archive entry), because
the archive-suffix branch overwrites the accumulator resetting both
markers and the multi-segment branch rebuilds it without carrying the Tar
flag. -/
theorem c10_backup_list_order_sensitive :
    ([⟨"n.tar", 10, 5⟩, ⟨"n.tar/metadata/x", 1, 1⟩,
        ⟨"n.tar/shadow/y", 2, 2⟩] : List RemoteFile).Perm
        [⟨"n.tar/metadata/x", 1, 1⟩, ⟨"n.tar/shadow/y", 2, 2⟩,
          ⟨"n.tar", 10, 5⟩]
      ∧ backupList "" [⟨"n.tar", 10, 5⟩, ⟨"n.tar/metadata/x", 1, 1⟩,
          ⟨"n.tar/shadow/y", 2, 2⟩] = []
      ∧ backupList "" [⟨"n.tar/metadata/x", 1, 1⟩, ⟨"n.tar/shadow/y", 2, 2⟩,
          ⟨"n.tar", 10, 5⟩] = [⟨"n.tar", 10, 5⟩] := by
  refine ⟨by decide, by decide, by decide⟩

/-- Claim C6: retention count. A keep count below one deletes nothing and
succeeds; with keep at least one and a catalog of M backups nothing is
deleted when M does not exceed keep, and otherwise exactly M minus keep
backups are removed, each removed backup dated no later than every kept
one, and the removed and kept backups together are exactly the catalog,
the kept part being the keep most recent entries. GetBackupsToDelete is
modelled from the spec because its definition is not among the provided
sources. -/
theorem c6_retention (catalog : List Backup) (keep : Int) :
    (keep < 1 → RemoveOldBackups catalog keep = [])
      ∧ (1 ≤ keep → catalog.length ≤ keep.toNat →
          RemoveOldBackups catalog keep = [])
      ∧ (1 ≤ keep → keep.toNat < catalog.length →
          (RemoveOldBackups catalog keep).length =
              catalog.length - keep.toNat
            ∧ ((sortByDateDesc catalog).take keep.toNat ++
                RemoveOldBackups catalog keep).Perm catalog
            ∧ ((sortByDateDesc catalog).take keep.toNat).length = keep.toNat
            ∧ ∀ d ∈ RemoveOldBackups catalog keep,
                ∀ kp ∈ (sortByDateDesc catalog).take keep.toNat,
                  d.Date ≤ kp.Date) := by
  have hlen : (sortByDateDesc catalog).length = catalog.length :=
    (perm_sortByDateDesc catalog).length_eq
  refine ⟨?_, ?_, ?_⟩
  · intro h
    rw [RemoveOldBackups, if_pos h]
  · intro h1 hM
    rw [RemoveOldBackups, if_neg (by omega), GetBackupsToDelete]
    apply List.drop_eq_nil_of_le
    omega
  · intro h1 hM
    have hro : RemoveOldBackups catalog keep =
        (sortByDateDesc catalog).drop keep.toNat := by
      rw [RemoveOldBackups, if_neg (by omega), GetBackupsToDelete]
    refine ⟨?_, ?_, ?_, ?_⟩
    · rw [hro, List.length_drop, hlen]
    · rw [hro, List.take_append_drop]
      exact perm_sortByDateDesc catalog
    · rw [List.length_take]
      omega
    · intro d hd kp hkp
      have hsorted := pairwise_sortByDateDesc catalog
      rw [← List.take_append_drop keep.toNat (sortByDateDesc catalog)]
        at hsorted
      rw [hro] at hd
      have := (List.pairwise_append.mp hsorted).2.2 kp hkp d hd
      exact this

/-- Claim C6, witness: a three-entry catalog is untouched for keep counts
zero and five, and keep two removes exactly one backup. -/
theorem c6_witness :
    RemoveOldBackups [⟨"x", 1, 10⟩, ⟨"y", 1, 20⟩, ⟨"z", 1, 30⟩] 0 = []
      ∧ RemoveOldBackups [⟨"x", 1, 10⟩, ⟨"y", 1, 20⟩, ⟨"z", 1, 30⟩] 5 = []
      ∧ (RemoveOldBackups [⟨"x", 1, 10⟩, ⟨"y", 1, 20⟩, ⟨"z", 1, 30⟩] 2).length
          = 1 := by
  refine ⟨(c6_retention _ 0).1 (by decide),
    (c6_retention _ 5).2.1 (by decide) (by decide), ?_⟩
  exact ((c6_retention [⟨"x", 1, 10⟩, ⟨"y", 1, 20⟩, ⟨"z", 1, 30⟩] 2).2.2
    (by decide) (by decide)).1

/-- Claim C9: RemoveBackup collects for deletion exactly the walked keys
with the raw string prefix path.Join(bd.path, name), with no
path-separator boundary check; consequently when one backup name is a
string prefix of another, removing the shorter-named backup also deletes
every key of the longer-named one. -/
theorem c9_remove_backup_overreach (bdPath : String) (walked : List String)
    (name1 name2 k : String) :
    (∀ x, x ∈ removeBackupObjects bdPath walked name1 ↔
        x ∈ walked ∧ goStarts x (pathJoin bdPath name1) = true)
      ∧ (goStarts name2 name1 = true → k ∈ walked →
          goStarts k (pathJoin bdPath name2) = true →
          k ∈ removeBackupObjects bdPath walked name1) := by
  constructor
  · intro x
    simp [removeBackupObjects, List.mem_filter]
  · intro hpre hk hstart
    rw [removeBackupObjects, List.mem_filter]
    exact ⟨hk, goStarts_trans (pathJoin_mono hpre) hstart⟩

/-- Claim C9, witness: with an empty storage path, backups a and ab, the
key ab/metadata/x of backup ab is collected by RemoveBackup of a. -/
theorem c9_witness :
    "ab/metadata/x" ∈ removeBackupObjects "" ["ab/metadata/x"] "a" :=
  (c9_remove_backup_overreach "" ["ab/metadata/x"] "a" "ab"
    "ab/metadata/x").2 (by decide) (by decide) (by decide)

/-- Claim C4: during an incremental upload (non-empty diffFromPath, all
files readable, distinct relative paths) a file is recorded in the
hardlink list if and only if the file at the same relative path under
diffFromPath exists and has the same physical identity (os.SameFile:
identical device+inode), and its bytes enter the archive exactly
otherwise; file content plays no role, so two files with equal bytes but
different identity are re-archived in full. -/
theorem c4_hardlink_identity (tree : List LocalFile) (dfp : String)
    (dt : String → Option DiffEntry) (hdfp : dfp ≠ "")
    (hread : ∀ f ∈ tree, f.readable = true)
    (hnodup : (tree.map LocalFile.relPath).Nodup) :
    ∀ f ∈ tree,
      (f.relPath ∈ uploadHardlinks tree dfp dt ↔
        ∃ d, dt f.relPath = some d ∧ d.fid = f.fid)
      ∧ (TarEntry.mk f.relPath f.content ∈ uploadEntries tree dfp dt ↔
          ¬ ∃ d, dt f.relPath = some d ∧ d.fid = f.fid) :=
  producerWalk_hardlink_char hdfp tree hread hnodup

/-- Claim C4, witness: the file same (identity 10 on both sides) is
hardlinked, while the file copy, whose bytes equal its diff counterpart
but whose identity differs (11 versus 99), is re-archived in full. -/
theorem c4_witness :
    "same" ∈ uploadHardlinks
        [⟨"same", FileContent.bytes [7], 10, true⟩,
          ⟨"copy", FileContent.bytes [7], 11, true⟩] "base/prev"
        (fun s => if s = "same" then some ⟨10, FileContent.bytes [7]⟩
          else if s = "copy" then some ⟨99, FileContent.bytes [7]⟩ else none)
      ∧ TarEntry.mk "copy" (FileContent.bytes [7]) ∈ uploadEntries
          [⟨"same", FileContent.bytes [7], 10, true⟩,
            ⟨"copy", FileContent.bytes [7], 11, true⟩] "base/prev"
          (fun s => if s = "same" then some ⟨10, FileContent.bytes [7]⟩
            else if s = "copy" then some ⟨99, FileContent.bytes [7]⟩
            else none) := by
  constructor
  · exact ((c4_hardlink_identity
      [⟨"same", FileContent.bytes [7], 10, true⟩,
        ⟨"copy", FileContent.bytes [7], 11, true⟩] "base/prev"
      (fun s => if s = "same" then some ⟨10, FileContent.bytes [7]⟩
        else if s = "copy" then some ⟨99, FileContent.bytes [7]⟩ else none)
      (by decide) (by decide) (by decide)
      ⟨"same", FileContent.bytes [7], 10, true⟩ (by decide)).1).mpr
      ⟨⟨10, FileContent.bytes [7]⟩, rfl, rfl⟩
  · refine ((c4_hardlink_identity
      [⟨"same", FileContent.bytes [7], 10, true⟩,
        ⟨"copy", FileContent.bytes [7], 11, true⟩] "base/prev"
      (fun s => if s = "same" then some ⟨10, FileContent.bytes [7]⟩
        else if s = "copy" then some ⟨99, FileContent.bytes [7]⟩ else none)
      (by decide) (by decide) (by decide)
      ⟨"copy", FileContent.bytes [7], 11, true⟩ (by decide)).2).mpr ?_
    rintro ⟨d, hd, hfid⟩
    have hd2 : some (⟨99, FileContent.bytes [7]⟩ : DiffEntry) = some d := hd
    have hd3 := Option.some.inj hd2
    rw [← hd3] at hfid
    exact absurd hfid (by decide)

/-- Claim C5: the MetaFile invariant of the upload producer (for trees not
using the reserved entry name): any MetaFile entry the archive stream
contains has a non-empty hardlink list and a non-empty required backup
name (the base name of diffFromPath), and it is the last entry of the
archive; and when no hardlink was collected no entry of the archive is
named meta.json at all. -/
theorem c5_metafile_invariant (tree : List LocalFile) (dfp : String)
    (dt : String → Option DiffEntry)
    (hmeta : MetaFileName ∉ tree.map LocalFile.relPath) :
    (∀ mf : MetaFile,
        TarEntry.mk MetaFileName (FileContent.metaJson mf) ∈
            uploadArchive tree dfp dt →
          mf.Hardlinks ≠ [] ∧ mf.RequiredBackup ≠ ""
            ∧ (uploadArchive tree dfp dt).getLast? =
                some (TarEntry.mk MetaFileName (FileContent.metaJson mf)))
      ∧ (uploadHardlinks tree dfp dt = [] →
          ∀ e ∈ uploadArchive tree dfp dt, e.name ≠ MetaFileName) := by
  have hent : ∀ e ∈ uploadEntries tree dfp dt, e.name ≠ MetaFileName := by
    intro e he hname
    exact hmeta (hname ▸ mem_producerWalk_entries he)
  by_cases hguard : ((uploadFerr tree dfp dt).isNone &&
      !(uploadHardlinks tree dfp dt).isEmpty) = true
  · have harch : uploadArchive tree dfp dt =
        uploadEntries tree dfp dt ++
          [metaEntryFor dfp (uploadHardlinks tree dfp dt)] := by
      rw [uploadArchive, if_pos hguard]
    have hhl : uploadHardlinks tree dfp dt ≠ [] := by
      have hg2 := hguard
      simp only [Bool.and_eq_true] at hg2
      rcases hg2 with ⟨_, hne⟩
      intro hnil
      rw [hnil] at hne
      simp at hne
    constructor
    · intro mf hmem
      rw [harch] at hmem
      rcases List.mem_append.mp hmem with hmem | hmem
      · exact absurd rfl (hent _ hmem)
      · have heq : TarEntry.mk MetaFileName (FileContent.metaJson mf) =
            metaEntryFor dfp (uploadHardlinks tree dfp dt) :=
          List.mem_singleton.mp hmem
        simp only [metaEntryFor] at heq
        have hmf : mf = ⟨goBase dfp, uploadHardlinks tree dfp dt⟩ := by
          injection heq with h1 h2
          injection h2 with h3
        refine ⟨?_, ?_, ?_⟩
        · rw [hmf]
          exact hhl
        · rw [hmf]
          exact goBase_ne_empty dfp
        · rw [harch]
          have hback : metaEntryFor dfp (uploadHardlinks tree dfp dt) =
              TarEntry.mk MetaFileName (FileContent.metaJson mf) := by
            simp only [metaEntryFor]
            rw [hmf]
          rw [← hback]
          exact List.getLast?_concat _
    · intro hnil
      rw [hnil] at hhl
      exact absurd rfl hhl
  · have harch : uploadArchive tree dfp dt = uploadEntries tree dfp dt := by
      rw [uploadArchive, if_neg hguard]
    constructor
    · intro mf hmem
      rw [harch] at hmem
      exact absurd rfl (hent _ hmem)
    · intro _ e he
      rw [harch] at he
      exact hent e he

/-- Claim C5, witness: the incremental upload of a two-file tree where f1
is unchanged against base/prev yields an archive whose last entry is the
MetaFile with required backup prev and hardlink list f1. -/
theorem c5_witness :
    (MetaFile.mk "prev" ["f1"]).Hardlinks ≠ []
      ∧ (MetaFile.mk "prev" ["f1"]).RequiredBackup ≠ ""
      ∧ (uploadArchive
          [⟨"f1", FileContent.bytes [1], 10, true⟩,
            ⟨"f2", FileContent.bytes [2], 20, true⟩] "base/prev"
          (fun s => if s = "f1" then some ⟨10, FileContent.bytes [1]⟩
            else if s = "f2" then some ⟨99, FileContent.bytes [2]⟩
            else none)).getLast? =
        some (TarEntry.mk MetaFileName
          (FileContent.metaJson (MetaFile.mk "prev" ["f1"]))) :=
  (c5_metafile_invariant
    [⟨"f1", FileContent.bytes [1], 10, true⟩,
      ⟨"f2", FileContent.bytes [2], 20, true⟩] "base/prev"
    (fun s => if s = "f1" then some ⟨10, FileContent.bytes [1]⟩
      else if s = "f2" then some ⟨99, FileContent.bytes [2]⟩ else none)
    (by decide)).1 (MetaFile.mk "prev" ["f1"]) (by decide)

/-- Claim C1: round trip. Uploading a readable tree that does not use the
reserved entry name with CompressedStreamUpload and no diffFrom, then
downloading the resulting archive into a fresh local root, reproduces
byte-identical file contents under the same relative paths with the empty
metafile, and the reserved name meta.json never appears among the
extracted files. -/
theorem c1_round_trip (env : UploadEnv) (tree : List LocalFile)
    (dt : String → Option DiffEntry) (A : List TarEntry)
    (hprobe : env.probe = some Err.notFound ∨ env.probe = none)
    (hput : env.putFileOk = true)
    (hread : ∀ f ∈ tree, f.readable = true)
    (hmeta : MetaFileName ∉ tree.map LocalFile.relPath)
    (hup : compressedStreamUpload env tree "" dt = Except.ok A) :
    compressedStreamDownload A (fun _ => none) =
        Except.ok (tree.map (fun f => (f.relPath, f.content)), ⟨"", []⟩)
      ∧ MetaFileName ∉
          (tree.map (fun f => (f.relPath, f.content))).map Prod.fst := by
  have hwalk := producerWalk_no_diff dt tree hread
  have harch : uploadArchive tree "" dt =
      tree.map (fun f => TarEntry.mk f.relPath f.content) := by
    simp only [uploadArchive, uploadFerr, uploadHardlinks, uploadEntries,
      hwalk]
    simp
  have hA : A = tree.map (fun f => TarEntry.mk f.relPath f.content) := by
    rw [compressedStreamUpload_ok env tree "" dt hprobe hput (Or.inl rfl)]
      at hup
    rw [harch] at hup
    exact (Except.ok.inj hup).symm
  have hnames : ∀ e ∈ tree.map (fun f => TarEntry.mk f.relPath f.content),
      e.name ≠ MetaFileName := by
    intro e he hname
    rcases List.mem_map.mp he with ⟨f, hf, rfl⟩
    exact hmeta (hname ▸ List.mem_map_of_mem LocalFile.relPath hf)
  constructor
  · rw [hA, compressedStreamDownload, extractLoop_no_meta _ _ hnames]
    simp only [hardlinkPhase]
    simp [List.map_map, Function.comp]
  · intro hmem
    rw [List.map_map] at hmem
    rcases List.mem_map.mp hmem with ⟨f, hf, hfe⟩
    exact hmeta (hfe ▸ List.mem_map_of_mem LocalFile.relPath hf)

/-- Claim C1, witness: a concrete two-file tree with a subdirectory round
trips through upload and download. -/
theorem c1_witness :
    compressedStreamDownload
        [⟨"d1/f1", FileContent.bytes [1, 2]⟩, ⟨"f2", FileContent.bytes [3]⟩]
        (fun _ => none) =
      Except.ok ([("d1/f1", FileContent.bytes [1, 2]),
        ("f2", FileContent.bytes [3])], ⟨"", []⟩) := by
  have h := (c1_round_trip ⟨some Err.notFound, none, true⟩
    [⟨"d1/f1", FileContent.bytes [1, 2], 10, true⟩,
      ⟨"f2", FileContent.bytes [3], 11, true⟩]
    (fun _ => none)
    [⟨"d1/f1", FileContent.bytes [1, 2]⟩, ⟨"f2", FileContent.bytes [3]⟩]
    (Or.inl rfl) rfl (by decide) (by decide) (by decide)).1
  exact h

/-- Claim C2 (code bug): in CompressedStreamUpload the producer goroutine
runs defer w.CloseWithError(ferr); Go evaluates the deferred argument when
the defer statement executes, while the named return ferr is still nil, so
the pipe is always closed cleanly and a producer failure is never
delivered to the consumer. Evaluated at a failing input: the walk fails on
the unreadable file b, yet the upload returns success with a truncated
one-entry archive. -/
theorem c2_producer_error_swallowed :
    uploadFerr [⟨"a", FileContent.bytes [1], 1, true⟩,
        ⟨"b", FileContent.bytes [2], 2, false⟩] "" (fun _ => none) =
        some (Err.openFailed "b")
      ∧ compressedStreamUpload ⟨some Err.notFound, none, true⟩
          [⟨"a", FileContent.bytes [1], 1, true⟩,
            ⟨"b", FileContent.bytes [2], 2, false⟩] "" (fun _ => none) =
          Except.ok [⟨"a", FileContent.bytes [1]⟩] := by
  exact ⟨by decide, by decide⟩

/-- Claim C8, amended: the pre-upload GetFile probe gates the upload only
against probe errors other than ErrNotFound: such an error is returned as
the failure; both an existing remote object (probe reports no error) and
explicit absence (ErrNotFound) let the upload proceed identically. -/
theorem c8_upload_precondition (env : UploadEnv) (tree : List LocalFile)
    (dfp : String) (dt : String → Option DiffEntry) :
    (∀ e : Err, env.probe = some e → e ≠ Err.notFound →
        compressedStreamUpload env tree dfp dt = Except.error e)
      ∧ compressedStreamUpload ⟨some Err.notFound, env.diffStat,
            env.putFileOk⟩ tree dfp dt =
          compressedStreamUpload ⟨none, env.diffStat, env.putFileOk⟩
            tree dfp dt := by
  constructor
  · intro e he hne
    rw [compressedStreamUpload, he]
    simp [hne]
  · rw [compressedStreamUpload, compressedStreamUpload]
    simp [uploadPipe]

/-- Claim C8, counterexample to the claim as stated: when the pre-upload
probe reports that the remote object already exists (no error), the upload
does not fail; it proceeds and succeeds. -/
theorem c8_counterexample :
    compressedStreamUpload ⟨none, none, true⟩
        [⟨"a", FileContent.bytes [1], 1, true⟩] "" (fun _ => none) =
      Except.ok [⟨"a", FileContent.bytes [1]⟩] := by
  decide

/-- Claim C8, witness: a probe failure other than ErrNotFound aborts the
upload with that error. -/
theorem c8_witness :
    compressedStreamUpload ⟨some (Err.transport 7), none, true⟩ [] ""
        (fun _ => none) = Except.error (Err.transport 7) :=
  (c8_upload_precondition ⟨some (Err.transport 7), none, true⟩ [] ""
    (fun _ => none)).1 (Err.transport 7) rfl (by decide)
